import Mathlib

/-!
Shallow embedding of the splines repository.

The repository sources available are the crate root (lib.rs, documentation and module
wiring), iter.rs (the key iterator) and nalgebra.rs (adapter conformances with no
algorithmic content). The sampling core (spline.rs, key.rs, interpolation.rs,
interpolate.rs) is not among the sources, so those parts are modelled from the spec,
as the doc comments below record. Coordinates and values are modelled as rationals, an
exact stand-in for the numeric types the code is generic over; the cosine supplied by
the Interpolate capability of the value type is threaded as an explicit function
parameter cf.
-/

namespace Splines

/-- Modelled from the spec: the closed set of interpolation strategies (spec section 3);
the file interpolation.rs is missing from the sources. Step holds the lower value,
Linear blends, Cosine blends through a cosine ease, CatmullRom is a four-point Hermite
blend, and the Bezier variants carry auxiliary control values. -/
inductive Interpolation where
  | Step : Interpolation
  | Linear : Interpolation
  | Cosine : Interpolation
  | CatmullRom : Interpolation
  | Bezier (u : ℚ) : Interpolation
  | StrokeBezier (u w : ℚ) : Interpolation
deriving DecidableEq, Repr

/-- Modelled from the spec: a control point carrying a sampling coordinate, a value and
the interpolation mode of the segment starting at this key (spec section 3); the file
key.rs is missing from the sources. -/
structure Key where
  coordinate : ℚ
  value : ℚ
  mode : Interpolation
deriving DecidableEq, Repr

instance : Inhabited Key := ⟨⟨0, 0, .Linear⟩⟩

/-- Modelled from the spec: a spline owns an ordered sequence of keys (spec section 3);
the file spline.rs is missing from the sources. -/
structure Spline where
  keys : List Key
deriving DecidableEq, Repr

/-- Ordering of keys by coordinate, the relation the constructor sorts by. -/
def keyLE (a b : Key) : Prop := a.coordinate ≤ b.coordinate

instance : DecidableRel keyLE := fun a b =>
  inferInstanceAs (Decidable (a.coordinate ≤ b.coordinate))

instance : IsTotal Key keyLE := ⟨fun a b => le_total a.coordinate b.coordinate⟩

instance : IsTrans Key keyLE := ⟨fun _ _ _ h1 h2 => le_trans h1 h2⟩

/-- Modelled from the spec: the constructor accepts a caller-supplied sequence and sorts
it ascending by coordinate with a stable sort (spec section 6). -/
def Spline.from_vec (keys : List Key) : Spline := ⟨List.insertionSort keyLE keys⟩

/-- Modelled from the spec: ordered insertion that maintains sort order (spec
sections 3 and 6). -/
def Spline.add (s : Spline) (k : Key) : Spline := ⟨s.keys.orderedInsert keyLE k⟩

/-- Modelled from the spec: the linear blend of the Interpolate capability; it returns
exactly the endpoints at t = 0 and t = 1 (spec section 4.2). -/
def lerp (a b t : ℚ) : ℚ := a + (b - a) * t

/-- Modelled from the spec: the four-point cubic Hermite blend of the Interpolate
capability (spec section 4.2). It passes through the two middle control values at t = 0
and t = 1 and uses the outer points only through finite-difference tangents; the tangent
division is guarded since division by zero is zero on the rationals. -/
def cubicHermite (p0 p1 p2 p3 : ℚ × ℚ) (t : ℚ) : ℚ :=
  let m1 := (p2.1 - p0.1) / (p2.2 - p0.2)
  let m2 := (p3.1 - p1.1) / (p3.2 - p1.2)
  let t2 := t * t
  let t3 := t2 * t
  (2 * t3 - 3 * t2 + 1) * p1.1 + (t3 - 2 * t2 + t) * m1
    + (3 * t2 - 2 * t3) * p2.1 + (t3 - t2) * m2

/-- Modelled from the spec: quadratic Bezier blend for the one-control-point Bezier
variant (spec section 4.4). -/
def bezierQuad (a u b t : ℚ) : ℚ :=
  (1 - t) * (1 - t) * a + 2 * (1 - t) * t * u + t * t * b

/-- Modelled from the spec: cubic Bezier blend for the two-control-point variant (spec
section 4.4). -/
def bezierCubic (a u w b t : ℚ) : ℚ :=
  (1 - t) * (1 - t) * (1 - t) * a + 3 * (1 - t) * (1 - t) * t * u
    + 3 * (1 - t) * t * t * w + t * t * t * b

/-- Access to the key at index i of a key list, with the default key out of range; all
indices fed to it by the sampling path are in range. -/
def kAt (l : List Key) (i : Nat) : Key := l.getD i default

/-- Modelled from the spec: segment location (spec section 4.3). On a sorted key list
this finds the largest index whose coordinate is at most x, which is exactly the bias
the spec demands: at a coordinate shared by several keys, the last matching key starts
the segment. -/
def lastLE (x : ℚ) : List Key → Option Nat
  | [] => none
  | k :: ks =>
    if k.coordinate ≤ x then
      match lastLE x ks with
      | some j => some (j + 1)
      | none => some 0
    else none

/-- Modelled from the spec: normalization of x into t across the segment span, clamped
to 0 when the span is exactly zero so that no division by zero is attempted (spec
sections 4.4 and 7). -/
def tParam (lower upper : Key) (x : ℚ) : ℚ :=
  if upper.coordinate - lower.coordinate = 0 then 0
  else (x - lower.coordinate) / (upper.coordinate - lower.coordinate)

/-- Modelled from the spec: the per-mode formula dispatch on the segment starting at
index j (spec section 4.4). The cosine of the Interpolate capability is supplied by the
value type in the code, so it is the parameter cf here; CatmullRom falls back to Linear
at the first or last segment, where a neighbor key is missing. -/
def interpolateAt (cf : ℚ → ℚ) (keys : List Key) (j : Nat) (x : ℚ) : ℚ :=
  let lower := kAt keys j
  let upper := kAt keys (j + 1)
  let t := tParam lower upper x
  match lower.mode with
  | .Step => lower.value
  | .Linear => lerp lower.value upper.value t
  | .Cosine => lerp lower.value upper.value ((1 - cf t) / 2)
  | .CatmullRom =>
    match j, keys[j + 2]? with
    | jp + 1, some after =>
      cubicHermite ((kAt keys jp).value, (kAt keys jp).coordinate)
        (lower.value, lower.coordinate) (upper.value, upper.coordinate)
        (after.value, after.coordinate) t
    | _, _ => lerp lower.value upper.value t
  | .Bezier u => bezierQuad lower.value u upper.value t
  | .StrokeBezier u w => bezierCubic lower.value u w upper.value t

/-- Modelled from the spec: sampling (spec section 4.4); the file spline.rs is missing
from the sources. With fewer than two keys, or x outside the closed key range, there is
no value. Otherwise the segment containing x is located with the last-match bias of
section 4.3; when x equals the final key coordinate the last matching key is the final
key, no segment starts there, and its value is returned directly, as section 8 requires
for every mode. -/
def Spline.sample (cf : ℚ → ℚ) (s : Spline) (x : ℚ) : Option ℚ :=
  if s.keys.length < 2 then none
  else if x < (kAt s.keys 0).coordinate ∨ (kAt s.keys (s.keys.length - 1)).coordinate < x
    then none
  else
    match lastLE x s.keys with
    | some j =>
      if j + 1 = s.keys.length then some ((kAt s.keys j).value)
      else some (interpolateAt cf s.keys j x)
    | none => none

/-- Modelled from the spec: clamped sampling (spec section 4.4). Coordinates at or below
the first key coordinate return the first key value, coordinates at or above the last
return the last key value, interior coordinates defer to sample; only the empty spline
yields no value. -/
def Spline.clamped_sample (cf : ℚ → ℚ) (s : Spline) (x : ℚ) : Option ℚ :=
  if s.keys.length = 0 then none
  else if x ≤ (kAt s.keys 0).coordinate then some ((kAt s.keys 0).value)
  else if (kAt s.keys (s.keys.length - 1)).coordinate ≤ x then
    some ((kAt s.keys (s.keys.length - 1)).value)
  else s.sample cf x

/-- The struct Iter of iter.rs: a reference to the spline and a running index i. -/
structure Iter where
  spline : Spline
  i : Nat
deriving DecidableEq, Repr

/-- The next method of Iter in iter.rs: r is the element of the key storage at index i;
i is incremented only when r is present; r is returned. The mutated iterator is returned
alongside the yielded element. -/
def Iter.next (it : Iter) : Option Key × Iter :=
  match it.spline.keys[it.i]? with
  | some k => (some k, { it with i := it.i + 1 })
  | none => (none, it)

/-- The IntoIterator impl for a spline reference in iter.rs: a fresh Iter over the
spline starting at index 0. -/
def Spline.into_iter (s : Spline) : Iter := { spline := s, i := 0 }

/-- A concrete cosine stand-in for witnesses: any capability function with value 1 at 0,
as the cosine of the Interpolate capability has. -/
def cfDemo : ℚ → ℚ := fun t => 1 - 2 * t * t

/-- The two-key Linear spline of the spec scenarios, keys (0, 0) and (1, 10). -/
def demoLinear : Spline := ⟨[⟨0, 0, .Linear⟩, ⟨1, 10, .Linear⟩]⟩

/-- The two-key Step spline of the spec scenarios, keys (0, 0) and (1, 10). -/
def demoStep : Spline := ⟨[⟨0, 0, .Step⟩, ⟨1, 10, .Step⟩]⟩

/-- The single-key spline of the spec scenarios, key (0, 5). -/
def demoSingle : Spline := ⟨[⟨0, 5, .Linear⟩]⟩

/-- A spline whose two keys share one coordinate but carry different values. -/
def demoDup : Spline := ⟨[⟨0, 1, .Linear⟩, ⟨0, 2, .Linear⟩]⟩

/-- A spline with a zero-length segment between two interior keys. -/
def demoDegSeg : Spline := ⟨[⟨0, 1, .Linear⟩, ⟨0, 2, .Linear⟩, ⟨1, 3, .Linear⟩]⟩

/-- A four-key CatmullRom spline, giving an interior segment with both neighbors. -/
def demoCatmull : Spline :=
  ⟨[⟨0, 0, .CatmullRom⟩, ⟨1, 2, .CatmullRom⟩, ⟨2, 1, .CatmullRom⟩, ⟨3, 3, .CatmullRom⟩]⟩

/-- Repeatedly calling next until it yields nothing, collecting the yielded keys: the
traversal a for loop performs over the iterator of iter.rs. -/
def Iter.collect (it : Iter) : List Key :=
  match h : it.next with
  | (some k, it2) => k :: it2.collect
  | (none, _) => []
termination_by it.spline.keys.length - it.i
decreasing_by
  unfold Iter.next at h
  cases hg : it.spline.keys[it.i]? with
  | none => rw [hg] at h; simp at h
  | some k0 =>
    rw [hg] at h
    simp only [Prod.mk.injEq, Option.some.injEq] at h
    obtain ⟨hk, hit⟩ := h
    rw [← hit]
    have hlt := (List.getElem?_eq_some_iff.mp hg).1
    simp only []
    omega

/-! Basic facts about indexed access and the segment search. -/

lemma kAt_cons_zero (k : Key) (ks : List Key) : kAt (k :: ks) 0 = k := rfl

lemma kAt_cons_succ (k : Key) (ks : List Key) (j : Nat) : kAt (k :: ks) (j + 1) = kAt ks j :=
  rfl

lemma kAt_mem {l : List Key} {j : Nat} (hj : j < l.length) : kAt l j ∈ l := by
  unfold kAt
  rw [List.getD_eq_getElem l default hj]
  exact List.getElem_mem hj

lemma sorted_kAt_le {l : List Key} (hs : l.Sorted keyLE) {i j : Nat} (hij : i ≤ j)
    (hj : j < l.length) : (kAt l i).coordinate ≤ (kAt l j).coordinate := by
  rcases Nat.eq_or_lt_of_le hij with rfl | hlt
  · exact le_refl _
  · have hi : i < l.length := lt_trans hlt hj
    have hrel := hs.rel_get_of_lt
      (show (⟨i, hi⟩ : Fin l.length) < ⟨j, hj⟩ from Fin.mk_lt_mk.mpr hlt)
    unfold keyLE at hrel
    unfold kAt
    rw [List.getD_eq_getElem l default hi, List.getD_eq_getElem l default hj]
    simpa [List.get_eq_getElem] using hrel

lemma lastLE_eq {x : ℚ} : ∀ {l : List Key} {j : Nat}, l.Sorted keyLE → j < l.length →
    (kAt l j).coordinate ≤ x → (j + 1 = l.length ∨ x < (kAt l (j + 1)).coordinate) →
    lastLE x l = some j
  | [], j, _, hj, _, _ => absurd hj (by simp)
  | k :: ks, 0, _, _, hle, hup => by
    unfold lastLE
    rw [if_pos (by simpa [kAt_cons_zero] using hle)]
    have hnone : lastLE x ks = none := by
      rcases hup with h1 | h2
      · cases ks with
        | nil => rfl
        | cons k1 ks1 => simp at h1
      · cases ks with
        | nil => rfl
        | cons k1 ks1 =>
          unfold lastLE
          rw [if_neg (not_le.mpr (by simpa [kAt_cons_succ, kAt_cons_zero] using h2))]
    rw [hnone]
  | k :: ks, j + 1, hs, hj, hle, hup => by
    have hsk : ks.Sorted keyLE := hs.of_cons
    have hjk : j < ks.length := by simpa using hj
    have hle2 : (kAt ks j).coordinate ≤ x := by simpa [kAt_cons_succ] using hle
    have hup2 : j + 1 = ks.length ∨ x < (kAt ks (j + 1)).coordinate := by
      rcases hup with h1 | h2
      · left; simpa using h1
      · right; simpa [kAt_cons_succ] using h2
    have hk : k.coordinate ≤ x := by
      have hmem := kAt_mem hjk
      have hrel := (List.pairwise_cons.mp hs).1 _ hmem
      exact le_trans hrel hle2
    unfold lastLE
    rw [if_pos hk, lastLE_eq hsk hjk hle2 hup2]

lemma lastLE_lt_length {x : ℚ} : ∀ {l : List Key} {j : Nat}, lastLE x l = some j →
    j < l.length
  | [], j, h => by simp [lastLE] at h
  | k :: ks, j, h => by
    unfold lastLE at h
    by_cases hk : k.coordinate ≤ x
    · rw [if_pos hk] at h
      cases hr : lastLE x ks with
      | some j0 =>
        rw [hr] at h
        simp only [Option.some.injEq] at h
        have := lastLE_lt_length hr
        simp
        omega
      | none =>
        rw [hr] at h
        simp only [Option.some.injEq] at h
        simp
        omega
    · rw [if_neg hk] at h
      exact absurd h (by simp)

lemma lastLE_isSome {x : ℚ} {k : Key} (ks : List Key) (h : k.coordinate ≤ x) :
    ∃ j, lastLE x (k :: ks) = some j := by
  unfold lastLE
  rw [if_pos h]
  cases lastLE x ks with
  | some j0 => exact ⟨j0 + 1, rfl⟩
  | none => exact ⟨0, rfl⟩

/-! Unfolding lemmas for sample at a located segment. -/

lemma sample_eq_of_seg {cf : ℚ → ℚ} {s : Spline} {x : ℚ} {j : Nat}
    (hs : s.keys.Sorted keyLE) (hj : j + 1 < s.keys.length)
    (hle : (kAt s.keys j).coordinate ≤ x) (hup : x < (kAt s.keys (j + 1)).coordinate) :
    s.sample cf x = some (interpolateAt cf s.keys j x) := by
  have hfirst : (kAt s.keys 0).coordinate ≤ x :=
    le_trans (sorted_kAt_le hs (Nat.zero_le j) (by omega)) hle
  have hlast : x ≤ (kAt s.keys (s.keys.length - 1)).coordinate :=
    le_trans (le_of_lt hup) (sorted_kAt_le hs (by omega) (by omega))
  have hL : lastLE x s.keys = some j := lastLE_eq hs (by omega) hle (Or.inr hup)
  unfold Spline.sample
  rw [if_neg (by omega), if_neg (by push_neg; exact ⟨hfirst, hlast⟩), hL]
  simp only []
  rw [if_neg (by omega)]

lemma sample_at_top {cf : ℚ → ℚ} {s : Spline} {x : ℚ}
    (hs : s.keys.Sorted keyLE) (hn : 2 ≤ s.keys.length)
    (hx : (kAt s.keys (s.keys.length - 1)).coordinate = x) :
    s.sample cf x = some ((kAt s.keys (s.keys.length - 1)).value) := by
  have hfirst : (kAt s.keys 0).coordinate ≤ x :=
    hx ▸ sorted_kAt_le hs (by omega) (by omega)
  have hL : lastLE x s.keys = some (s.keys.length - 1) :=
    lastLE_eq hs (by omega) (le_of_eq hx) (Or.inl (by omega))
  unfold Spline.sample
  rw [if_neg (by omega), if_neg (by push_neg; exact ⟨hfirst, le_of_eq hx.symm⟩), hL]
  simp only []
  rw [if_pos (by omega)]

lemma sample_isSome_on_domain {cf : ℚ → ℚ} {s : Spline} {x : ℚ} (hn : 2 ≤ s.keys.length)
    (hfirst : (kAt s.keys 0).coordinate ≤ x)
    (hlast : x ≤ (kAt s.keys (s.keys.length - 1)).coordinate) :
    (s.sample cf x).isSome := by
  unfold Spline.sample
  rw [if_neg (by omega), if_neg (by push_neg; exact ⟨hfirst, hlast⟩)]
  obtain ⟨k, ks, hcons⟩ : ∃ k ks, s.keys = k :: ks := by
    cases hk : s.keys with
    | nil => rw [hk] at hn; simp at hn
    | cons a b => exact ⟨a, b, rfl⟩
  have hk0 : k.coordinate ≤ x := by
    have hq : kAt s.keys 0 = k := by rw [hcons]; rfl
    rw [← hq]; exact hfirst
  obtain ⟨j, hj⟩ := lastLE_isSome ks hk0
  rw [hcons, hj]
  simp only []
  split <;> simp

/-! Endpoint behavior of the blending formulas at t = 0. -/

lemma lerp_zero (a b : ℚ) : lerp a b 0 = a := by unfold lerp; ring

lemma lerp_one (a b : ℚ) : lerp a b 1 = b := by unfold lerp; ring

lemma cubicHermite_zero (p0 p1 p2 p3 : ℚ × ℚ) : cubicHermite p0 p1 p2 p3 0 = p1.1 := by
  unfold cubicHermite; ring

lemma bezierQuad_zero (a u b : ℚ) : bezierQuad a u b 0 = a := by unfold bezierQuad; ring

lemma bezierCubic_zero (a u w b : ℚ) : bezierCubic a u w b 0 = a := by
  unfold bezierCubic; ring

lemma tParam_at_lower (lower upper : Key) : tParam lower upper lower.coordinate = 0 := by
  unfold tParam
  split
  · rfl
  · simp

lemma interpolateAt_at_lower {cf : ℚ → ℚ} (hcf : cf 0 = 1) (keys : List Key) (j : Nat) :
    interpolateAt cf keys j ((kAt keys j).coordinate) = (kAt keys j).value := by
  unfold interpolateAt
  simp only [tParam_at_lower]
  cases hmode : (kAt keys j).mode with
  | Step => rfl
  | Linear => simp [lerp_zero]
  | Cosine => rw [hcf]; norm_num [lerp_zero]
  | CatmullRom =>
    cases j with
    | zero => simp [lerp_zero]
    | succ jp =>
      cases keys[jp + 1 + 2]? with
      | some after => simp [cubicHermite_zero]
      | none => simp [lerp_zero]
  | Bezier u => simp [bezierQuad_zero]
  | StrokeBezier u w => simp [bezierCubic_zero]



/-- C1: sample returns no value whenever the spline has fewer than two keys, whenever x
is strictly below the first key coordinate, and whenever x is strictly above the last key
coordinate; in particular a single-key spline samples to none at every coordinate,
including its own key coordinate. -/
theorem c1_sample_out_of_domain :
    (∀ (cf : ℚ → ℚ) (s : Spline) (x : ℚ), s.keys.length < 2 → s.sample cf x = none) ∧
    (∀ (cf : ℚ → ℚ) (s : Spline) (x : ℚ), x < (kAt s.keys 0).coordinate →
      s.sample cf x = none) ∧
    (∀ (cf : ℚ → ℚ) (s : Spline) (x : ℚ),
      (kAt s.keys (s.keys.length - 1)).coordinate < x → s.sample cf x = none) := by
  refine ⟨?_, ?_, ?_⟩
  · intro cf s x h
    unfold Spline.sample
    rw [if_pos h]
  · intro cf s x h
    unfold Spline.sample
    by_cases h2 : s.keys.length < 2
    · rw [if_pos h2]
    · rw [if_neg h2, if_pos (Or.inl h)]
  · intro cf s x h
    unfold Spline.sample
    by_cases h2 : s.keys.length < 2
    · rw [if_pos h2]
    · rw [if_neg h2, if_pos (Or.inr h)]

/-- Witness for C1 at the single-key spline of the spec scenario. -/
theorem c1_witness :
    demoSingle.sample cfDemo 0 = none ∧ demoSingle.sample cfDemo 1 = none :=
  ⟨c1_sample_out_of_domain.1 cfDemo demoSingle 0 (by decide),
   c1_sample_out_of_domain.1 cfDemo demoSingle 1 (by decide)⟩

/-- C4: for every mode, sampling exactly at the coordinate of a key that is the last key
carrying that coordinate returns that key value; with several keys sharing the
coordinate, the last-match tie-break of the segment search makes the sample equal the
last matching key value. The hypothesis on cf is the capability invariant of spec
section 3, formulas return the endpoint exactly at t equal 0. -/
theorem c4_sample_at_key (cf : ℚ → ℚ) (hcf : cf 0 = 1) (s : Spline)
    (hs : s.keys.Sorted keyLE) (hn : 2 ≤ s.keys.length) (j : Nat) (hj : j < s.keys.length)
    (hlastmatch : j + 1 = s.keys.length ∨
      (kAt s.keys j).coordinate < (kAt s.keys (j + 1)).coordinate) :
    s.sample cf ((kAt s.keys j).coordinate) = some ((kAt s.keys j).value) := by
  by_cases htop : j + 1 = s.keys.length
  · have hj2 : j = s.keys.length - 1 := by omega
    subst hj2
    exact sample_at_top hs hn rfl
  · have hup : (kAt s.keys j).coordinate < (kAt s.keys (j + 1)).coordinate :=
      hlastmatch.resolve_left htop
    rw [sample_eq_of_seg hs (by omega) (le_refl _) hup, interpolateAt_at_lower hcf]

/-- Witness for C4 on the Step scenario keys (0,0) and (1,10): the sample at 1 is 10,
the value of the key at that coordinate, not 0. -/
theorem c4_witness : demoStep.sample cfDemo 1 = some 10 ∧ demoStep.sample cfDemo 0 = some 0 := by
  constructor
  · exact c4_sample_at_key cfDemo (by norm_num [cfDemo]) demoStep (by decide) (by decide) 1
      (by decide) (Or.inl (by decide))
  · exact c4_sample_at_key cfDemo (by norm_num [cfDemo]) demoStep (by decide) (by decide) 0
      (by decide) (Or.inr (by decide))

/-- C3: inside a segment whose lower key has mode Linear, sample is the lerp of the two
segment values at the normalized parameter, and the concrete scenario keys (0,0) and
(1,10) sample to 0, 5 and 10 at coordinates 0, one half and 1. -/
theorem c3_linear (cf : ℚ → ℚ) :
    (∀ (s : Spline) (j : Nat) (x : ℚ), s.keys.Sorted keyLE → j + 1 < s.keys.length →
      (kAt s.keys j).mode = .Linear → (kAt s.keys j).coordinate ≤ x →
      x < (kAt s.keys (j + 1)).coordinate →
      s.sample cf x = some (lerp (kAt s.keys j).value (kAt s.keys (j + 1)).value
        ((x - (kAt s.keys j).coordinate) /
          ((kAt s.keys (j + 1)).coordinate - (kAt s.keys j).coordinate)))) ∧
    demoLinear.sample cf 0 = some 0 ∧ demoLinear.sample cf (1/2) = some 5 ∧
    demoLinear.sample cf 1 = some 10 := by
  refine ⟨?_, ?_, ?_, ?_⟩
  · intro s j x hs hj hmode hle hup
    rw [sample_eq_of_seg hs hj hle hup]
    have hspan : (kAt s.keys (j + 1)).coordinate - (kAt s.keys j).coordinate ≠ 0 := by
      have hlt := lt_of_le_of_lt hle hup
      intro h0
      rw [sub_eq_zero] at h0
      exact absurd (h0 ▸ hlt) (lt_irrefl _)
    unfold interpolateAt
    simp only [hmode]
    unfold tParam
    rw [if_neg hspan]
  · norm_num [Spline.sample, lastLE, interpolateAt, kAt, tParam, lerp, demoLinear]
  · norm_num [Spline.sample, lastLE, interpolateAt, kAt, tParam, lerp, demoLinear]
  · norm_num [Spline.sample, lastLE, interpolateAt, kAt, tParam, lerp, demoLinear]

/-- C7: the normalized parameter is 0 by policy on a zero-length span, so no division by
zero is attempted, and sampling is total on the closed key range of any spline with at
least two keys: it yields a value there, and anomalies elsewhere are reported as an
absence of value, never a crash. -/
theorem c7_no_division_by_zero :
    (∀ (lower upper : Key) (x : ℚ), upper.coordinate = lower.coordinate →
      tParam lower upper x = 0) ∧
    (∀ (cf : ℚ → ℚ) (s : Spline) (x : ℚ), 2 ≤ s.keys.length →
      (kAt s.keys 0).coordinate ≤ x → x ≤ (kAt s.keys (s.keys.length - 1)).coordinate →
      (s.sample cf x).isSome) := by
  constructor
  · intro lower upper x h
    unfold tParam
    rw [if_pos (by rw [h]; ring)]
  · intro cf s x hn hfirst hlast
    exact sample_isSome_on_domain hn hfirst hlast

/-- Witness for C7: a zero-span key pair gets parameter 0, and a spline containing a
zero-length segment still samples to a value. -/
theorem c7_witness :
    tParam ⟨0, 1, .Linear⟩ ⟨0, 2, .Linear⟩ (5 : ℚ) = 0 ∧
      (demoDegSeg.sample cfDemo 0).isSome := by
  constructor
  · exact c7_no_division_by_zero.1 _ _ _ (by norm_num)
  · exact c7_no_division_by_zero.2 cfDemo demoDegSeg 0 (by decide) (by decide) (by decide)

/-- C2, counterexample: the claimed clamp to the last key value for every x at or above
the last coordinate fails when every key shares one coordinate but values differ; on the
keys (0,1) and (0,2) at x equal 0 the clamp yields the first value 1, not 2. -/
theorem c2_counterexample :
    ¬ (∀ (cf : ℚ → ℚ) (s : Spline) (x : ℚ), 1 ≤ s.keys.length →
        (kAt s.keys (s.keys.length - 1)).coordinate ≤ x →
        s.clamped_sample cf x = some ((kAt s.keys (s.keys.length - 1)).value)) := by
  intro h
  exact absurd (h cfDemo demoDup 0 (by decide) (by decide)) (by decide)

/-- C2, amended: clamped sampling clamps to the first key value at or below the first
coordinate; clamps to the last key value at or above the last coordinate provided x is
strictly above the first coordinate; agrees with sample strictly inside the key range;
yields a value for every spline with at least one key; and yields none exactly on the
empty spline. -/
theorem c2_clamped_amended :
    (∀ (cf : ℚ → ℚ) (s : Spline) (x : ℚ), 1 ≤ s.keys.length →
      x ≤ (kAt s.keys 0).coordinate →
      s.clamped_sample cf x = some ((kAt s.keys 0).value)) ∧
    (∀ (cf : ℚ → ℚ) (s : Spline) (x : ℚ), 1 ≤ s.keys.length →
      (kAt s.keys 0).coordinate < x →
      (kAt s.keys (s.keys.length - 1)).coordinate ≤ x →
      s.clamped_sample cf x = some ((kAt s.keys (s.keys.length - 1)).value)) ∧
    (∀ (cf : ℚ → ℚ) (s : Spline) (x : ℚ), (kAt s.keys 0).coordinate < x →
      x < (kAt s.keys (s.keys.length - 1)).coordinate →
      s.clamped_sample cf x = s.sample cf x) ∧
    (∀ (cf : ℚ → ℚ) (s : Spline) (x : ℚ), 1 ≤ s.keys.length →
      (s.clamped_sample cf x).isSome) ∧
    (∀ (cf : ℚ → ℚ) (x : ℚ), Spline.clamped_sample cf ⟨[]⟩ x = none) := by
  refine ⟨?_, ?_, ?_, ?_, ?_⟩
  · intro cf s x hn hx
    unfold Spline.clamped_sample
    rw [if_neg (by omega), if_pos hx]
  · intro cf s x hn hfx hlx
    unfold Spline.clamped_sample
    rw [if_neg (by omega), if_neg (not_le.mpr hfx), if_pos hlx]
  · intro cf s x h1 h2
    by_cases hlen : s.keys.length ≤ 1
    · exfalso
      have h0 : s.keys.length - 1 = 0 := by omega
      rw [h0] at h2
      exact absurd (lt_trans h1 h2) (lt_irrefl _)
    · unfold Spline.clamped_sample
      rw [if_neg (by omega), if_neg (not_le.mpr h1), if_neg (not_le.mpr h2)]
  · intro cf s x hn
    unfold Spline.clamped_sample
    rw [if_neg (by omega)]
    by_cases hx1 : x ≤ (kAt s.keys 0).coordinate
    · rw [if_pos hx1]; rfl
    · rw [if_neg hx1]
      by_cases hx2 : (kAt s.keys (s.keys.length - 1)).coordinate ≤ x
      · rw [if_pos hx2]; rfl
      · rw [if_neg hx2]
        push_neg at hx1 hx2
        have hn2 : 2 ≤ s.keys.length := by
          rcases Nat.lt_or_ge s.keys.length 2 with h2 | h2
          · exfalso
            have h1 : s.keys.length - 1 = 0 := by omega
            rw [h1] at hx2
            exact absurd (lt_trans hx1 hx2) (lt_irrefl _)
          · exact h2
        exact sample_isSome_on_domain hn2 (le_of_lt hx1) (le_of_lt hx2)
  · intro cf x
    rfl

/-- Witness for C2 on the scenario splines, including the single-key spline clamped on
both sides and the empty spline. -/
theorem c2_witness :
    demoLinear.clamped_sample cfDemo (-9/10) = some 0 ∧
    demoLinear.clamped_sample cfDemo (11/10) = some 10 ∧
    demoSingle.clamped_sample cfDemo 5 = some 5 ∧
    demoSingle.clamped_sample cfDemo (-3) = some 5 ∧
    demoLinear.clamped_sample cfDemo (1/2) = demoLinear.sample cfDemo (1/2) ∧
    (demoDup.clamped_sample cfDemo 0).isSome ∧
    Spline.clamped_sample cfDemo ⟨[]⟩ 7 = none := by
  refine ⟨?_, ?_, ?_, ?_, ?_, ?_, ?_⟩
  · exact c2_clamped_amended.1 cfDemo demoLinear (-9/10) (by decide)
      (by norm_num [demoLinear, kAt])
  · exact c2_clamped_amended.2.1 cfDemo demoLinear (11/10) (by decide)
      (by norm_num [demoLinear, kAt]) (by norm_num [demoLinear, kAt])
  · exact c2_clamped_amended.2.1 cfDemo demoSingle 5 (by decide) (by decide) (by decide)
  · exact c2_clamped_amended.1 cfDemo demoSingle (-3) (by decide) (by decide)
  · exact c2_clamped_amended.2.2.1 cfDemo demoLinear (1/2) (by norm_num [demoLinear, kAt])
      (by norm_num [demoLinear, kAt])
  · exact c2_clamped_amended.2.2.2.1 cfDemo demoDup 0 (by decide)
  · exact c2_clamped_amended.2.2.2.2 cfDemo 7

/-- C6: the constructor sorts ascending by coordinate, keeps exactly the input keys as a
permutation so duplicate coordinates are permitted, is stable in that the subsequence of
keys at any fixed coordinate is unchanged, and ordered insertion preserves sortedness. -/
theorem c6_construction :
    (∀ keys : List Key, (Spline.from_vec keys).keys.Sorted keyLE) ∧
    (∀ keys : List Key, (Spline.from_vec keys).keys.Perm keys) ∧
    (∀ (keys : List Key) (c : ℚ),
      (Spline.from_vec keys).keys.filter (fun k => k.coordinate == c) =
        keys.filter (fun k => k.coordinate == c)) ∧
    (∀ (s : Spline) (k : Key), s.keys.Sorted keyLE → ((s.add k).keys.Sorted keyLE)) := by
  refine ⟨?_, ?_, ?_, ?_⟩
  · intro keys
    exact List.sorted_insertionSort keyLE keys
  · intro keys
    exact List.perm_insertionSort keyLE keys
  · intro keys c
    have hpw : (keys.filter (fun k => k.coordinate == c)).Pairwise keyLE := by
      apply List.pairwise_of_forall_mem_list
      intro a ha b hb
      have ha3 : a.coordinate = c := by simpa using (List.mem_filter.mp ha).2
      have hb3 : b.coordinate = c := by simpa using (List.mem_filter.mp hb).2
      unfold keyLE
      rw [ha3, hb3]
    have hsub : (keys.filter (fun k => k.coordinate == c)).Sublist (Spline.from_vec keys).keys :=
      List.sublist_insertionSort hpw (List.filter_sublist keys)
    have hsub2 : (keys.filter (fun k => k.coordinate == c)).Sublist
        ((Spline.from_vec keys).keys.filter (fun k => k.coordinate == c)) := by
      have h2 := hsub.filter (fun k => k.coordinate == c)
      simpa using h2
    have hlen : ((Spline.from_vec keys).keys.filter (fun k => k.coordinate == c)).length
        = (keys.filter (fun k => k.coordinate == c)).length :=
      ((List.perm_insertionSort keyLE keys).filter (fun k => k.coordinate == c)).length_eq
    exact (hsub2.eq_of_length hlen.symm).symm
  · intro s k hs
    exact List.Sorted.orderedInsert k s.keys hs

/-- Witness for C6 on a concrete unsorted key list with a duplicated coordinate, and an
ordered insertion into a sorted spline. -/
theorem c6_witness :
    (Spline.from_vec [⟨1, 10, .Linear⟩, ⟨0, 0, .Step⟩, ⟨0, 5, .Cosine⟩]).keys.Sorted keyLE ∧
    (Spline.from_vec [⟨1, 10, .Linear⟩, ⟨0, 0, .Step⟩, ⟨0, 5, .Cosine⟩]).keys.filter
        (fun k => k.coordinate == 0) =
      [⟨1, 10, .Linear⟩, ⟨0, 0, .Step⟩, ⟨0, 5, .Cosine⟩].filter (fun k => k.coordinate == 0) ∧
    ((Spline.mk [⟨0, 0, .Step⟩, ⟨1, 10, .Linear⟩]).add ⟨1, 7, .Cosine⟩).keys.Sorted keyLE :=
  ⟨c6_construction.1 _,
   c6_construction.2.2.1 _ 0,
   c6_construction.2.2.2 ⟨[⟨0, 0, .Step⟩, ⟨1, 10, .Linear⟩]⟩ ⟨1, 7, .Cosine⟩ (by decide)⟩

/-- Witness for C3: the general segment formula applied at the demo spline and one half,
and the closed scenario conjunct at 1. -/
theorem c3_witness :
    demoLinear.sample cfDemo (1/2) = some 5 ∧ demoLinear.sample cfDemo 1 = some 10 := by
  constructor
  · have h := (c3_linear cfDemo).1 demoLinear 0 (1/2) (by decide) (by decide) (by decide)
      (by norm_num [demoLinear, kAt]) (by norm_num [demoLinear, kAt])
    rw [h]
    norm_num [demoLinear, kAt, lerp]
  · exact (c3_linear cfDemo).2.2.2

lemma kAt_eq_getElem {l : List Key} {i : Nat} (h : i < l.length) : kAt l i = l[i] :=
  List.getD_eq_getElem l default h

/-- C5: in a segment whose lower key has mode CatmullRom, sample is the four-point cubic
Hermite blend of the segment keys with the key before the lower key and the key after
the upper key when both neighbors exist; at the first or last segment, where a neighbor
is missing, sample is the Linear result on the same two segment keys, a value and not an
error. -/
theorem c5_catmullrom (cf : ℚ → ℚ) (s : Spline) (j : Nat) (x : ℚ)
    (hs : s.keys.Sorted keyLE) (hj : j + 1 < s.keys.length)
    (hmode : (kAt s.keys j).mode = .CatmullRom)
    (hle : (kAt s.keys j).coordinate ≤ x) (hup : x < (kAt s.keys (j + 1)).coordinate) :
    (∀ jp, j = jp + 1 → j + 2 < s.keys.length →
      s.sample cf x = some (cubicHermite
        ((kAt s.keys jp).value, (kAt s.keys jp).coordinate)
        ((kAt s.keys j).value, (kAt s.keys j).coordinate)
        ((kAt s.keys (j + 1)).value, (kAt s.keys (j + 1)).coordinate)
        ((kAt s.keys (j + 2)).value, (kAt s.keys (j + 2)).coordinate)
        (tParam (kAt s.keys j) (kAt s.keys (j + 1)) x))) ∧
    ((j = 0 ∨ j + 2 = s.keys.length) →
      s.sample cf x = some (lerp (kAt s.keys j).value (kAt s.keys (j + 1)).value
        (tParam (kAt s.keys j) (kAt s.keys (j + 1)) x))) := by
  constructor
  · intro jp hjp hnb
    rw [sample_eq_of_seg hs hj hle hup]
    subst hjp
    unfold interpolateAt
    simp only [hmode]
    have hsome : s.keys[jp + 1 + 2]? = some (kAt s.keys (jp + 1 + 2)) := by
      rw [kAt_eq_getElem (by omega)]
      exact List.getElem?_eq_getElem (by omega)
    rw [hsome]
  · intro hfb
    rw [sample_eq_of_seg hs hj hle hup]
    unfold interpolateAt
    simp only [hmode]
    rcases hfb with h0 | hend
    · subst h0
      cases hopt : s.keys[0 + 2]? <;> rfl
    · have hnone : s.keys[j + 2]? = none := List.getElem?_eq_none (by omega)
      cases j with
      | zero => cases hopt : s.keys[0 + 2]? <;> rfl
      | succ jp =>
        rw [hnone]



/-- Witness for C5 on a four-key CatmullRom spline: the interior segment uses the
Hermite blend, the first segment falls back to the Linear result. -/
theorem c5_witness :
    demoCatmull.sample cfDemo (3/2) = some (cubicHermite (0, 0) (2, 1) (1, 2) (3, 3)
      (tParam ⟨1, 2, .CatmullRom⟩ ⟨2, 1, .CatmullRom⟩ (3/2))) ∧
    demoCatmull.sample cfDemo (1/2) = some (lerp 0 2
      (tParam ⟨0, 0, .CatmullRom⟩ ⟨1, 2, .CatmullRom⟩ (1/2))) := by
  constructor
  · exact (c5_catmullrom cfDemo demoCatmull 1 (3/2) (by decide) (by decide) (by decide)
      (by norm_num [demoCatmull, kAt]) (by norm_num [demoCatmull, kAt])).1 0 rfl (by decide)
  · exact (c5_catmullrom cfDemo demoCatmull 0 (1/2) (by decide) (by decide) (by decide)
      (by norm_num [demoCatmull, kAt]) (by norm_num [demoCatmull, kAt])).2 (Or.inl rfl)

lemma collect_next_some {it : Iter} {k : Key} {it2 : Iter} (h : it.next = (some k, it2)) :
    it.collect = k :: it2.collect := by
  rw [Iter.collect.eq_def]
  split
  · next k0 it0 heq =>
    rw [h] at heq
    simp only [Prod.mk.injEq, Option.some.injEq] at heq
    rw [heq.1, heq.2]
  · next heq =>
    rw [h] at heq
    simp at heq

lemma collect_next_none {it : Iter} (h : it.next.1 = none) : it.collect = [] := by
  rw [Iter.collect.eq_def]
  split
  · next k0 it0 heq =>
    rw [heq] at h
    simp at h
  · rfl

lemma collect_eq_drop : ∀ (n : Nat) (it : Iter), it.spline.keys.length - it.i ≤ n →
    it.collect = it.spline.keys.drop it.i
  | 0, it, h => by
    have hge : it.spline.keys.length ≤ it.i := by omega
    have hnone : it.next.1 = none := by
      unfold Iter.next
      rw [List.getElem?_eq_none hge]
    rw [collect_next_none hnone, List.drop_eq_nil_of_le hge]
  | n + 1, it, h => by
    cases hg : it.spline.keys[it.i]? with
    | none =>
      have hnone : it.next.1 = none := by
        unfold Iter.next
        rw [hg]
      have hge : it.spline.keys.length ≤ it.i := by
        by_contra hlt
        push_neg at hlt
        rw [List.getElem?_eq_getElem hlt] at hg
        simp at hg
      rw [collect_next_none hnone, List.drop_eq_nil_of_le hge]
    | some k =>
      have hnext : it.next = (some k, { it with i := it.i + 1 }) := by
        unfold Iter.next
        rw [hg]
      have hlt : it.i < it.spline.keys.length := (List.getElem?_eq_some_iff.mp hg).1
      rw [collect_next_some hnext,
        collect_eq_drop n { it with i := it.i + 1 } (by simp only []; omega)]
      rw [List.drop_eq_getElem_cons hlt]
      simp only [List.cons.injEq]
      exact ⟨((List.getElem?_eq_some_iff.mp hg).2).symm, trivial⟩

/-- C8: traversing the iterator obtained from a spline yields exactly the stored keys,
one per stored key, in stored order from index 0; the traversal is finite, and it is
restartable because into_iter always builds a fresh iterator at index 0. -/
theorem c8_iter_yields_keys (s : Spline) : (s.into_iter).collect = s.keys := by
  rw [collect_eq_drop s.keys.length s.into_iter (by simp [Spline.into_iter])]
  simp [Spline.into_iter]

/-- C10: the key iterator is fused; when next yields nothing the iterator is returned
unchanged, so every later call yields nothing as well, and the index is incremented only
when a key is actually yielded. -/
theorem c10_iter_fused :
    (∀ it : Iter, it.next.1 = none → it.next.2 = it ∧ ((it.next.2).next).1 = none) ∧
    (∀ (it : Iter) (k : Key) (it2 : Iter), it.next = (some k, it2) → it2.i = it.i + 1) := by
  constructor
  · intro it h
    have h2 : it.next.2 = it := by
      unfold Iter.next at h ⊢
      cases hg : it.spline.keys[it.i]? with
      | some k => rw [hg] at h; simp at h
      | none => rfl
    exact ⟨h2, by rw [h2]; exact h⟩
  · intro it k it2 h
    unfold Iter.next at h
    cases hg : it.spline.keys[it.i]? with
    | some k0 =>
      rw [hg] at h
      simp only [Prod.mk.injEq, Option.some.injEq] at h
      rw [← h.2]
    | none =>
      rw [hg] at h
      simp at h

/-- Witness for C10 on the iterator of the empty spline. -/
theorem c10_witness :
    (Spline.into_iter ⟨[]⟩).next.2 = Spline.into_iter ⟨[]⟩ ∧
      (((Spline.into_iter ⟨[]⟩).next.2).next).1 = none :=
  c10_iter_fused.1 (Spline.into_iter ⟨[]⟩) (by decide)

lemma kAt_append_lt {l l2 : List Key} {i : Nat} (h : i < l.length) :
    kAt (l ++ l2) i = kAt l i := by
  unfold kAt
  rw [List.getD_eq_getElem _ _ (by simp; omega), List.getD_eq_getElem _ _ h]
  exact List.getElem_append_left h

lemma kAt_append_last {l : List Key} (k : Key) : kAt (l ++ [k]) l.length = k := by
  unfold kAt
  rw [List.getD_eq_getElem _ _ (by simp)]
  exact List.getElem_concat_length l k l.length rfl (by simp)

lemma kAt_out {l : List Key} {i : Nat} (h : l.length ≤ i) : kAt l i = default :=
  List.getD_eq_default l default h

lemma kAt_append_coord {l : List Key} {k k2 : Key} (hc : k.coordinate = k2.coordinate)
    (i : Nat) : (kAt (l ++ [k]) i).coordinate = (kAt (l ++ [k2]) i).coordinate := by
  rcases Nat.lt_trichotomy i l.length with hi | hi | hi
  · rw [kAt_append_lt hi, kAt_append_lt hi]
  · subst hi
    rw [kAt_append_last, kAt_append_last]
    exact hc
  · rw [kAt_out (by simp; omega), kAt_out (by simp; omega)]

lemma kAt_append_value {l : List Key} {k k2 : Key} (hv : k.value = k2.value)
    (i : Nat) : (kAt (l ++ [k]) i).value = (kAt (l ++ [k2]) i).value := by
  rcases Nat.lt_trichotomy i l.length with hi | hi | hi
  · rw [kAt_append_lt hi, kAt_append_lt hi]
  · subst hi
    rw [kAt_append_last, kAt_append_last]
    exact hv
  · rw [kAt_out (by simp; omega), kAt_out (by simp; omega)]

lemma lastLE_map_congr {x : ℚ} : ∀ {l1 l2 : List Key},
    l1.map Key.coordinate = l2.map Key.coordinate → lastLE x l1 = lastLE x l2
  | [], [], _ => rfl
  | [], k2 :: ks2, h => by simp at h
  | k1 :: ks1, [], h => by simp at h
  | k1 :: ks1, k2 :: ks2, h => by
    simp only [List.map_cons, List.cons.injEq] at h
    unfold lastLE
    rw [h.1, lastLE_map_congr h.2]

lemma interpolateAt_append_congr {cf : ℚ → ℚ} {l : List Key} {k k2 : Key} {x : ℚ}
    (hc : k.coordinate = k2.coordinate) (hv : k.value = k2.value) {j : Nat}
    (hj : j < l.length) :
    interpolateAt cf (l ++ [k]) j x = interpolateAt cf (l ++ [k2]) j x := by
  have hlow : kAt (l ++ [k2]) j = kAt (l ++ [k]) j := by
    rw [kAt_append_lt hj, kAt_append_lt hj]
  have hupc : (kAt (l ++ [k2]) (j + 1)).coordinate = (kAt (l ++ [k]) (j + 1)).coordinate :=
    (kAt_append_coord hc (j + 1)).symm
  have hupv : (kAt (l ++ [k2]) (j + 1)).value = (kAt (l ++ [k]) (j + 1)).value :=
    (kAt_append_value hv (j + 1)).symm
  have ht2 : tParam (kAt (l ++ [k]) j) (kAt (l ++ [k2]) (j + 1)) x
      = tParam (kAt (l ++ [k]) j) (kAt (l ++ [k]) (j + 1)) x := by
    unfold tParam
    rw [hupc]
  unfold interpolateAt
  simp only [hlow, ht2, hupc, hupv]
  cases hmode : (kAt (l ++ [k]) j).mode with
  | Step => rfl
  | Linear => rfl
  | Cosine => rfl
  | CatmullRom =>
    cases j with
    | zero => rfl
    | succ jp =>
      cases hopt : (l ++ [k])[jp + 1 + 2]? with
      | none =>
        have hge : (l ++ [k]).length ≤ jp + 1 + 2 := by
          by_contra hlt
          push_neg at hlt
          rw [List.getElem?_eq_getElem hlt] at hopt
          simp at hopt
        have hopt2 : (l ++ [k2])[jp + 1 + 2]? = none :=
          List.getElem?_eq_none (by simp at hge ⊢; omega)
        rw [hopt2]
      | some after =>
        have hlt : jp + 1 + 2 < (l ++ [k]).length := (List.getElem?_eq_some_iff.mp hopt).1
        have hjp : jp < l.length := by omega
        rcases Nat.lt_or_ge (jp + 1 + 2) l.length with h3 | h3
        · have he1 : (l ++ [k])[jp + 1 + 2]? = l[jp + 1 + 2]? := by
            rw [List.getElem?_append]
            rw [if_pos h3]
          have he2 : (l ++ [k2])[jp + 1 + 2]? = l[jp + 1 + 2]? := by
            rw [List.getElem?_append]
            rw [if_pos h3]
          rw [he2, ← he1, hopt]
          simp only []
          rw [kAt_append_lt hjp, kAt_append_lt hjp]
        · have h4 : jp + 1 + 2 = l.length := by simp at hlt; omega
          have he1 : (l ++ [k])[jp + 1 + 2]? = some k := by
            rw [h4]
            simp
          have he2 : (l ++ [k2])[jp + 1 + 2]? = some k2 := by
            rw [h4]
            simp
          rw [hopt] at he1
          simp only [Option.some.injEq] at he1
          rw [he2]
          simp only []
          rw [kAt_append_lt hjp, kAt_append_lt hjp, he1, hc, hv]
  | Bezier u => rfl
  | StrokeBezier u w => rfl



lemma sample_append_congr (cf : ℚ → ℚ) (l : List Key) (k k2 : Key) (x : ℚ)
    (hc : k.coordinate = k2.coordinate) (hv : k.value = k2.value) :
    Spline.sample cf ⟨l ++ [k]⟩ x = Spline.sample cf ⟨l ++ [k2]⟩ x := by
  have hmap : (l ++ [k]).map Key.coordinate = (l ++ [k2]).map Key.coordinate := by
    simp [hc]
  have hlen : (l ++ [k2]).length = (l ++ [k]).length := by simp
  unfold Spline.sample
  simp only []
  rw [hlen]
  by_cases h2 : (l ++ [k]).length < 2
  · rw [if_pos h2, if_pos h2]
  · rw [if_neg h2, if_neg h2,
      show (kAt (l ++ [k2]) 0).coordinate = (kAt (l ++ [k]) 0).coordinate from
        (kAt_append_coord hc 0).symm,
      show (kAt (l ++ [k2]) ((l ++ [k]).length - 1)).coordinate
          = (kAt (l ++ [k]) ((l ++ [k]).length - 1)).coordinate from
        (kAt_append_coord hc _).symm,
      ← lastLE_map_congr hmap]
    by_cases hb : x < (kAt (l ++ [k]) 0).coordinate ∨
        (kAt (l ++ [k]) ((l ++ [k]).length - 1)).coordinate < x
    · rw [if_pos hb, if_pos hb]
    · rw [if_neg hb, if_neg hb]
      cases hL : lastLE x (l ++ [k]) with
      | none => rfl
      | some j =>
        simp only []
        have hjlt : j < (l ++ [k]).length := lastLE_lt_length hL
        by_cases hjtop : j + 1 = (l ++ [k]).length
        · rw [if_pos hjtop, if_pos hjtop]
          have hj2 : j = l.length := by
            have hlen2 : (l ++ [k]).length = l.length + 1 := by simp
            omega
          rw [hj2, kAt_append_last, kAt_append_last, hv]
        · rw [if_neg hjtop, if_neg hjtop]
          have hjl : j < l.length := by
            have hlen2 : (l ++ [k]).length = l.length + 1 := by simp
            omega
          rw [interpolateAt_append_congr hc hv hjl]

lemma clamped_append_congr (cf : ℚ → ℚ) (l : List Key) (k k2 : Key) (x : ℚ)
    (hc : k.coordinate = k2.coordinate) (hv : k.value = k2.value) :
    Spline.clamped_sample cf ⟨l ++ [k]⟩ x = Spline.clamped_sample cf ⟨l ++ [k2]⟩ x := by
  have hlen : (l ++ [k2]).length = (l ++ [k]).length := by simp
  unfold Spline.clamped_sample
  simp only []
  rw [hlen,
    show (kAt (l ++ [k2]) 0).coordinate = (kAt (l ++ [k]) 0).coordinate from
      (kAt_append_coord hc 0).symm,
    show (kAt (l ++ [k2]) 0).value = (kAt (l ++ [k]) 0).value from
      (kAt_append_value hv 0).symm,
    show (kAt (l ++ [k2]) ((l ++ [k]).length - 1)).coordinate
        = (kAt (l ++ [k]) ((l ++ [k]).length - 1)).coordinate from
      (kAt_append_coord hc _).symm,
    show (kAt (l ++ [k2]) ((l ++ [k]).length - 1)).value
        = (kAt (l ++ [k]) ((l ++ [k]).length - 1)).value from
      (kAt_append_value hv _).symm,
    sample_append_congr cf l k k2 x hc hv]

/-- C9: the interpolation mode stored on the final key never influences sampling; two
splines whose key lists agree except for the final key mode give identical sample and
clamped sample results at every coordinate. -/
theorem c9_last_mode_unused (cf : ℚ → ℚ) (l : List Key) (k k2 : Key) (x : ℚ)
    (hc : k.coordinate = k2.coordinate) (hv : k.value = k2.value) :
    Spline.sample cf ⟨l ++ [k]⟩ x = Spline.sample cf ⟨l ++ [k2]⟩ x ∧
    Spline.clamped_sample cf ⟨l ++ [k]⟩ x = Spline.clamped_sample cf ⟨l ++ [k2]⟩ x :=
  ⟨sample_append_congr cf l k k2 x hc hv, clamped_append_congr cf l k k2 x hc hv⟩

/-- Witness for C9: two concrete splines differing only in the final key mode sample
equally at one half. -/
theorem c9_witness :
    Spline.sample cfDemo ⟨[⟨0, 0, .Linear⟩] ++ [⟨1, 10, .Step⟩]⟩ (1/2) =
      Spline.sample cfDemo ⟨[⟨0, 0, .Linear⟩] ++ [⟨1, 10, .CatmullRom⟩]⟩ (1/2) ∧
    Spline.clamped_sample cfDemo ⟨[⟨0, 0, .Linear⟩] ++ [⟨1, 10, .Step⟩]⟩ (1/2) =
      Spline.clamped_sample cfDemo ⟨[⟨0, 0, .Linear⟩] ++ [⟨1, 10, .CatmullRom⟩]⟩ (1/2) :=
  c9_last_mode_unused cfDemo [⟨0, 0, .Linear⟩] ⟨1, 10, .Step⟩ ⟨1, 10, .CatmullRom⟩ (1/2)
    rfl rfl

end Splines
